import Mathlib

/-!
Verification of the arena-backed DOM core in `src/dom/styling.rs`.

The embedding models:
* the parsed html5ever tree (`RcNode`, a node kind plus a list of children),
* the slab of `NodeData` records built by `fill_slab_with_handles`
  (a `slab::Slab` with no removals hands out keys `0, 1, 2, …`, so it is
  modelled as a list whose index is the slab key),
* `BlitzNode` navigation (`forward`, `backward`, the element-sibling walks,
  which are loops bounded by the parent's child count and are given an
  explicit fuel that provably suffices),
* the `Traverser` iterator over a node's children,
* the attribute accessors (`has_id`, `has_class`, `each_class`,
  `each_attr_name`) over element payloads,
* the per-node style slot borrow discipline and the dirty/has-data flags,
* `as_document`, whose body panics before its `id == 0` test.

Rust functions that can panic are modelled in `Except String`; fallible
lookups return `Option`.
-/

namespace Blitz

/-- Payload of a parsed node, mirroring `markup5ever_rcdom::NodeData`.
Attributes are (local name, value) pairs in source order. -/
inductive NodeKind : Type where
  | document : NodeKind
  | doctype (name publicId systemId : String) : NodeKind
  | text (contents : String) : NodeKind
  | comment (contents : String) : NodeKind
  | element (localName : String) (attrs : List (String × String)) : NodeKind
  | processingInstruction (target payload : String) : NodeKind
deriving Repr, DecidableEq

/-- A parsed html5ever node: its payload and its ordered children,
mirroring `markup5ever_rcdom::Node` (`data` plus `children`). -/
inductive RcNode : Type where
  | mk (data : NodeKind) (children : List RcNode) : RcNode

/-- Mirror of the Rust `NodeData` record stored in the slab.  The `style`,
`layout_id` fields are modelled separately (see the borrow-state model
below); `node` keeps the payload of the referenced parsed node. -/
structure NodeData : Type where
  parent : Option Nat
  id : Nat
  child_idx : Nat
  children : List Nat
  node : NodeKind
deriving Repr, DecidableEq

/-- Mirror of `slab[id].children = …`: replace the `children` field of the
record stored at index `id`. -/
def setChildren : List NodeData → Nat → List Nat → List NodeData
  | [], _, _ => []
  | e :: rest, 0, cids => { e with children := cids } :: rest
  | e :: rest, Nat.succ k, cids => e :: setChildren rest k cids

mutual

/-- Mirror of `fill_slab_with_handles`: reserve the next slab slot (for a
slab that never frees entries, `vacant_entry().key()` is the current
length), insert a record with empty `children`, recurse into the parsed
children accumulating their ids, then write those ids back into the
reserved record.  Returns the updated slab and the id just inserted. -/
def fill_slab_with_handles (slab : List NodeData) :
    RcNode → Nat → Option Nat → List NodeData × Nat
  | .mk d cs, child_index, parent =>
    let id := slab.length
    let slab₁ := slab ++ [⟨parent, id, child_index, [], d⟩]
    let r := fillChildren slab₁ cs 0 id
    (setChildren r.1 id r.2, id)

/-- The `node.children.borrow().iter().enumerate().map(…)` loop of
`fill_slab_with_handles`: fill each child in order, threading the slab and
collecting the children's ids. -/
def fillChildren (slab : List NodeData) :
    List RcNode → Nat → Nat → List NodeData × List Nat
  | [], _, _ => (slab, [])
  | c :: cs, idx, parentId =>
    let r₁ := fill_slab_with_handles slab c idx (some parentId)
    let r₂ := fillChildren r₁.1 cs (idx + 1) parentId
    (r₂.1, r₁.2 :: r₂.2)

end

mutual

/-- Number of nodes of a parsed tree. -/
def sizeNode : RcNode → Nat
  | .mk _ cs => 1 + sizeForest cs

/-- Number of nodes of a parsed forest. -/
def sizeForest : List RcNode → Nat
  | [] => 0
  | c :: cs => sizeNode c + sizeForest cs

end

/-- Slab ids assigned to the roots of a forest whose first tree starts at
slab index `base` (each subsequent root is offset by the previous
subtree's size). -/
def idsOfChildren : Nat → List RcNode → List Nat
  | _, [] => []
  | base, c :: cs => base :: idsOfChildren (base + sizeNode c) cs

mutual

/-- Closed form of the slab block that `fill_slab_with_handles` appends
for one subtree when the slab currently has length `base`. -/
def buildNode (base : Nat) : RcNode → Nat → Option Nat → List NodeData
  | .mk d cs, ci, p =>
    ⟨p, base, ci, idsOfChildren (base + 1) cs, d⟩ :: buildForest (base + 1) base cs 0

/-- Closed form of the slab block appended for a forest of siblings whose
first tree starts at slab index `base`, all with parent `parentId` and
consecutive child indices starting at `idx`. -/
def buildForest (base parentId : Nat) : List RcNode → Nat → List NodeData
  | [], _ => []
  | c :: cs, idx =>
    buildNode base c idx (some parentId) ++ buildForest (base + sizeNode c) parentId cs (idx + 1)

end

mutual

/-- Pre-order list of the payloads of a parsed tree. -/
def preorderKinds : RcNode → List NodeKind
  | .mk d cs => d :: preorderForestKinds cs

/-- Pre-order list of the payloads of a parsed forest. -/
def preorderForestKinds : List RcNode → List NodeKind
  | [] => []
  | c :: cs => preorderKinds c ++ preorderForestKinds cs

end

/-- Mirror of `NodeData::Element { .. }` classification (`is_element`). -/
def NodeKind.isElement : NodeKind → Bool
  | .element _ _ => true
  | _ => false

/-- Mirror of `NodeData::Text { .. }` classification (`is_text_node`). -/
def NodeKind.isText : NodeKind → Bool
  | .text _ => true
  | _ => false

/-- Whether the node stored at slab index `i` is an element.  (In the Rust
code `data()` indexes the slab with an id that is always valid for a
constructed document; an absent entry is mapped to `false`.) -/
def is_element (slab : List NodeData) (i : Nat) : Bool :=
  match slab[i]? with
  | some e => e.node.isElement
  | none => false

/-- Mirror of `BlitzNode::forward`: the node `n` places after `self` in
the parent's child list, `none` at the root (no parent) or when
`child_idx + n` falls outside the parent's children. -/
def forward (slab : List NodeData) (i n : Nat) : Option Nat :=
  match slab[i]? with
  | none => none
  | some e =>
    match e.parent with
    | none => none
    | some p =>
      match slab[p]? with
      | none => none
      | some pe => pe.children[e.child_idx + n]?

/-- Mirror of `BlitzNode::backward`: the node `n` places before `self`,
guarded by the `child_idx < n` underflow check, `none` at the root. -/
def backward (slab : List NodeData) (i n : Nat) : Option Nat :=
  match slab[i]? with
  | none => none
  | some e =>
    if e.child_idx < n then none
    else
      match e.parent with
      | none => none
      | some p =>
        match slab[p]? with
        | none => none
        | some pe => pe.children[e.child_idx - n]?

/-- Mirror of `TNode::next_sibling` (`self.forward(1)`). -/
def next_sibling (slab : List NodeData) (i : Nat) : Option Nat :=
  forward slab i 1

/-- Mirror of `TNode::prev_sibling` (`self.backward(1)`). -/
def prev_sibling (slab : List NodeData) (i : Nat) : Option Nat :=
  backward slab i 1

/-- The `while let Some(node) = self.forward(n)` loop of
`next_sibling_element`, with an explicit fuel bounding the number of
iterations (the Rust loop stops by itself once `forward` runs off the end
of the parent's child list; the fuel is shown to be irrelevant beyond
that bound). -/
def next_sibling_element_loop (slab : List NodeData) (i : Nat) : Nat → Nat → Option Nat
  | 0, _ => none
  | fuel + 1, n =>
    match forward slab i n with
    | none => none
    | some j => if is_element slab j then some j else next_sibling_element_loop slab i fuel (n + 1)

/-- The `while let Some(node) = self.backward(n)` loop of
`prev_sibling_element`, with an explicit fuel. -/
def prev_sibling_element_loop (slab : List NodeData) (i : Nat) : Nat → Nat → Option Nat
  | 0, _ => none
  | fuel + 1, n =>
    match backward slab i n with
    | none => none
    | some j => if is_element slab j then some j else prev_sibling_element_loop slab i fuel (n + 1)

/-- Fuel that always suffices for the sibling walks: one more than the
parent's child count. -/
def sibling_fuel (slab : List NodeData) (i : Nat) : Nat :=
  match slab[i]? with
  | some e =>
    match e.parent with
    | some p =>
      match slab[p]? with
      | some pe => pe.children.length + 1
      | none => 1
    | none => 1
  | none => 1

/-- Mirror of `selectors::Element::next_sibling_element`. -/
def next_sibling_element (slab : List NodeData) (i : Nat) : Option Nat :=
  next_sibling_element_loop slab i (sibling_fuel slab i) 1

/-- Mirror of `selectors::Element::prev_sibling_element`. -/
def prev_sibling_element (slab : List NodeData) (i : Nat) : Option Nat :=
  prev_sibling_element_loop slab i (sibling_fuel slab i) 1

/-- Mirror of the `Traverser` iterator state: the parent being iterated
and the next child index. -/
structure Traverser : Type where
  parent : Nat
  child_index : Nat
deriving Repr, DecidableEq

/-- Mirror of `Iterator::next` for `Traverser`: look up the child at
`child_index` in the parent's children, advancing the index. -/
def Traverser.next (slab : List NodeData) (t : Traverser) : Option (Nat × Traverser) :=
  match slab[t.parent]? with
  | none => none
  | some e =>
    match e.children[t.child_index]? with
    | none => none
    | some c => some (c, ⟨t.parent, t.child_index + 1⟩)

/-- Mirror of `TElement::traversal_children`: a fresh `Traverser` over
node `i` starting at child index 0. -/
def traversal_children (i : Nat) : Traverser :=
  ⟨i, 0⟩

/-- Drain a `Traverser`, collecting the ids it yields (with fuel, since an
arbitrary slab record may have any `children` list). -/
def runTraverser (slab : List NodeData) : Nat → Traverser → List Nat
  | 0, _ => []
  | fuel + 1, t =>
    match Traverser.next slab t with
    | none => []
    | some (c, t₁) => c :: runTraverser slab fuel t₁

/-- Pre-order walk of the arena driven by `Traverser` iterators: visit a
node, then recursively visit each child yielded by its
`traversal_children` iterator, in order.  The outer fuel bounds the
recursion depth, the inner `slab.length` fuel suffices to drain any
traverser over a constructed document. -/
def arenaPreorder (slab : List NodeData) : Nat → Nat → List Nat
  | 0, _ => []
  | fuel + 1, i =>
    i :: ((runTraverser slab slab.length (traversal_children i)).map (arenaPreorder slab fuel)).flatten

/-- Mirror of `u8::is_ascii_whitespace`, the separator set of Rust's
`split_ascii_whitespace`. -/
def isAsciiWhitespace (c : Char) : Bool :=
  c = ' ' || c = '\t' || c = '\n' || c = Char.ofNat 12 || c = '\r'

/-- Accumulator pass of `split_ascii_whitespace` over the characters of
the string (current token held reversed). -/
def splitAWAux : List Char → List Char → List (List Char)
  | [], acc => if acc.isEmpty then [] else [acc.reverse]
  | c :: rest, acc =>
    if isAsciiWhitespace c then
      if acc.isEmpty then splitAWAux rest [] else acc.reverse :: splitAWAux rest []
    else splitAWAux rest (c :: acc)

/-- Mirror of Rust `str::split_ascii_whitespace`: the maximal non-empty
runs of non-ASCII-whitespace characters, in order. -/
def split_ascii_whitespace (s : String) : List String :=
  (splitAWAux s.data []).map fun cs => ⟨cs⟩

/-- The attribute loop shared by `has_class`: skip attributes not named
`class`, split the value on ASCII whitespace, and return `true` on the
first token equal to `searchName` (early `return true` modelled by `||`).
-/
def hasClassAttrs (searchName : String) : List (String × String) → Bool
  | [] => false
  | a :: rest =>
    if a.1 == "class" then
      (split_ascii_whitespace a.2).any (fun t => t == searchName) || hasClassAttrs searchName rest
    else hasClassAttrs searchName rest

/-- Mirror of `selectors::Element::has_class`: `false` for non-elements
(the `as_element()` guard), otherwise the attribute scan above. -/
def has_class (payload : NodeKind) (searchName : String) : Bool :=
  match payload with
  | .element _ attrs => hasClassAttrs searchName attrs
  | _ => false

/-- The attribute loop of `each_class`: the class tokens passed to the
callback, in attribute-list and then value order. -/
def eachClassTokens : List (String × String) → List String
  | [] => []
  | a :: rest =>
    if a.1 == "class" then split_ascii_whitespace a.2 ++ eachClassTokens rest
    else eachClassTokens rest

/-- Mirror of `TElement::each_class`, as the list of arguments the
callback is invoked with (empty for non-elements, via the `as_element()`
guard). -/
def each_class (payload : NodeKind) : List String :=
  match payload with
  | .element _ attrs => eachClassTokens attrs
  | _ => []

/-- Mirror of `TElement::each_attr_name`, as the list of arguments the
callback is invoked with: every attribute's local name, in order (empty
for non-elements). -/
def each_attr_name (payload : NodeKind) : List String :=
  match payload with
  | .element _ attrs => attrs.map Prod.fst
  | _ => []

/-- Mirror of `selectors::Element::has_id`: fold the
`each_attr_name` callback `|f| if f.as_ref() == "id" { has_id = true }`
over the attribute names.  Note the Rust code never reads the `id`
argument (nor the case sensitivity), so neither does the embedding. -/
def has_id (payload : NodeKind) (idArg : String) : Bool :=
  (each_attr_name payload).foldl (fun acc f => if f == "id" then true else acc) false

/-- Mirror of `TElement::has_dirty_descendants`: the body is literally
`false`; no per-node flag exists in `NodeData`. -/
def has_dirty_descendants (slab : List NodeData) (i : Nat) : Bool :=
  false

/-- Mirror of `TElement::set_dirty_descendants`: the body only prints a
message, so as a state transformer it is the identity. -/
def set_dirty_descendants (slab : List NodeData) (i : Nat) : List NodeData :=
  slab

/-- Mirror of `TElement::unset_dirty_descendants`: also print-only. -/
def unset_dirty_descendants (slab : List NodeData) (i : Nat) : List NodeData :=
  slab

/-- Mirror of `TElement::has_data`: the body is `todo!()`, an
unconditional panic. -/
def has_data (slab : List NodeData) (i : Nat) : Except String Bool :=
  Except.error "not implemented"

/-- Modelled from the spec: the borrow book-keeping of one node's
`AtomicRefCell<ElementData>` style slot.  The `atomic_refcell` crate is
not under `src/`; per §4.4 a slot admits any number of readers when no
writer is present, and one writer excluding everything else. -/
structure BorrowState : Type where
  readers : Nat
  writer : Bool
deriving Repr, DecidableEq

/-- Modelled from the spec: `AtomicRefCell::try_borrow` — grant a shared
read borrow unless a writer is active; never blocks, failure is `none`. -/
def try_borrow (s : BorrowState) : Option BorrowState :=
  if s.writer then none else some { s with readers := s.readers + 1 }

/-- Modelled from the spec: `AtomicRefCell::try_borrow_mut` — grant the
exclusive write borrow only when no reader and no writer is active. -/
def try_borrow_mut (s : BorrowState) : Option BorrowState :=
  if s.writer = false ∧ s.readers = 0 then some { s with writer := true } else none

/-- Mirror of `TElement::borrow_data`
(`self.data().style.try_borrow().ok()`), lifted to the per-node slot map:
on success the new slot map, on contention `none`. -/
def borrow_data (slots : Nat → BorrowState) (i : Nat) : Option (Nat → BorrowState) :=
  (try_borrow (slots i)).map fun s => Function.update slots i s

/-- Mirror of `TElement::mutate_data`
(`self.data().style.try_borrow_mut().ok()`). -/
def mutate_data (slots : Nat → BorrowState) (i : Nat) : Option (Nat → BorrowState) :=
  (try_borrow_mut (slots i)).map fun s => Function.update slots i s

/-- Releasing the write borrow on node `i` (the guard being dropped). -/
def release_write (slots : Nat → BorrowState) (i : Nat) : Nat → BorrowState :=
  Function.update slots i { slots i with writer := false }

/-- Mirror of `TNode::as_document`: the body begins with `panic!()`, so
the `if self.id != 0` test and the `Some(self.clone())` return that
follow it are dead code. -/
def as_document (slab : List NodeData) (i : Nat) : Except String (Option Nat) := do
  throw "panic"
  if i ≠ 0 then
    return none
  return (some i)

/-- The spec's §8 scenario document
`<div id="x"><p class="a b">hi</p></div>` wrapped in the synthetic
html5ever document node, used as concrete input for witnesses. -/
def exTree : RcNode :=
  .mk .document
    [ .mk (.element "div" [("id", "x")])
        [ .mk (.element "p" [("class", "a b")]) [.mk (.text "hi") []],
          .mk (.text "tail") [],
          .mk (.element "span" []) [] ] ]

/-- The slab constructed from `exTree`. -/
def exSlab : List NodeData :=
  (fill_slab_with_handles [] exTree 0 none).1

/-- A one-node slab used as concrete input for the flag claims. -/
def demoSlab : List NodeData :=
  [⟨none, 0, 0, [], .document⟩]

/-- A slot map with all style slots free. -/
def demoSlots : Nat → BorrowState :=
  fun _ => ⟨0, false⟩

/-- C1: evaluating the code's `has_id` at an element carrying `id="x"`
and the query name `"y"`: the code answers `true` because it only checks
that an attribute *named* `id` exists, ignoring both the attribute's
value and the queried name — whereas the claim requires `false` for any
name other than `"x"`. -/
theorem has_id_ignores_value :
    has_id (.element "div" [("id", "x")]) "y" = true := by
  rfl

/-- C2 (counterexample): at the concrete one-node document, running the
set-dirty-descendants operation on node 0 still leaves
`has_dirty_descendants` at `false`, and `has_data` aborts (`todo!()`)
instead of reading a stored flag — refuting the claim that these flags
are per-node cells the resolver sets and reads back. -/
theorem dirty_flags_not_cells_cex :
    has_dirty_descendants (set_dirty_descendants demoSlab 0) 0 = false ∧
    has_data demoSlab 0 = Except.error "not implemented" :=
  ⟨rfl, rfl⟩

/-- C2 (amended): `set_dirty_descendants` and `unset_dirty_descendants`
are print-only no-ops on every node, `has_dirty_descendants` is the
constant `false`, and `has_data` unconditionally aborts. -/
theorem dirty_flags_are_stubs (slab : List NodeData) (i : Nat) :
    set_dirty_descendants slab i = slab ∧
    unset_dirty_descendants slab i = slab ∧
    has_dirty_descendants slab i = false ∧
    has_data slab i = Except.error "not implemented" :=
  ⟨rfl, rfl, rfl, rfl⟩

/-- C3: once an exclusive write borrow on node `i`'s style slot has been
granted (`mutate_data` returned a new slot map `slots₁`), every further
read or write borrow request on `i` is refused with `none` (immediately,
the operations being total functions — there is no blocking or abort);
slots of all other nodes are untouched and their requests are granted or
refused exactly as before; and after the write borrow is released, both
kinds of borrow on `i` are grantable again. -/
theorem style_slot_write_borrow_excludes
    (slots : Nat → BorrowState) (i : Nat) (slots₁ : Nat → BorrowState)
    (h : mutate_data slots i = some slots₁) :
    borrow_data slots₁ i = none ∧
    mutate_data slots₁ i = none ∧
    (∀ j, j ≠ i → slots₁ j = slots j ∧
      (borrow_data slots₁ j).isSome = (borrow_data slots j).isSome ∧
      (mutate_data slots₁ j).isSome = (mutate_data slots j).isSome) ∧
    (borrow_data (release_write slots₁ i) i).isSome = true ∧
    (mutate_data (release_write slots₁ i) i).isSome = true := by
  unfold mutate_data try_borrow_mut at h
  by_cases hc : (slots i).writer = false ∧ (slots i).readers = 0
  · rw [if_pos hc] at h
    simp only [Option.map_some', Option.some.injEq] at h
    obtain ⟨hw, hr⟩ := hc
    subst h
    refine ⟨?_, ?_, ?_, ?_, ?_⟩
    · simp [borrow_data, try_borrow, Function.update_same]
    · simp [mutate_data, try_borrow_mut, Function.update_same]
    · intro j hj
      refine ⟨Function.update_noteq hj _ _, ?_, ?_⟩
      · simp [borrow_data, Function.update_noteq hj]
      · simp [mutate_data, Function.update_noteq hj]
    · simp [borrow_data, try_borrow, release_write, Function.update_same, hr]
    · simp [mutate_data, try_borrow_mut, release_write, Function.update_same, hr]
  · rw [if_neg hc] at h
    simp at h

/-- C3 (witness): on the all-free slot map, the write borrow on slot 5 is
granted, after which read and write requests on slot 5 are refused. -/
theorem style_slot_write_borrow_excludes_witness :
    borrow_data (Function.update demoSlots 5 ⟨0, true⟩) 5 = none ∧
    mutate_data (Function.update demoSlots 5 ⟨0, true⟩) 5 = none := by
  have h : mutate_data demoSlots 5 = some (Function.update demoSlots 5 ⟨0, true⟩) := rfl
  exact ⟨(style_slot_write_borrow_excludes demoSlots 5 _ h).1,
         (style_slot_write_borrow_excludes demoSlots 5 _ h).2.1⟩

/-- The class tokens fed to the `each_class` callback are exactly the
ASCII-whitespace splits of the values of the attributes named `class`,
concatenated in attribute order. -/
theorem eachClassTokens_eq (attrs : List (String × String)) :
    eachClassTokens attrs =
      (((attrs.filter fun a => a.1 == "class").map Prod.snd).map
        split_ascii_whitespace).flatten := by
  induction attrs with
  | nil => rfl
  | cons a rest ih =>
    cases hcl : a.1 == "class" with
    | true => simp [eachClassTokens, List.filter_cons, hcl, ih]
    | false => simp [eachClassTokens, List.filter_cons, hcl, ih]

/-- The `has_class` attribute scan succeeds exactly when some token the
`each_class` callback would see matches the searched name. -/
theorem hasClassAttrs_eq_any (name : String) (attrs : List (String × String)) :
    hasClassAttrs name attrs = (eachClassTokens attrs).any fun t => t == name := by
  induction attrs with
  | nil => rfl
  | cons a rest ih =>
    cases hcl : a.1 == "class" with
    | true => simp [hasClassAttrs, eachClassTokens, hcl, ih, List.any_append]
    | false => simp [hasClassAttrs, eachClassTokens, hcl, ih]

/-- C6: for an element whose attribute list carries exactly one `class`
attribute, with value `v`, `has_class` holds exactly for the
ASCII-whitespace-separated tokens of `v`, and `each_class` yields exactly
those tokens in source order; concretely for `class="a b c"`,
`has_class "b"` is true, `has_class "ab"` is false, and `each_class`
yields `["a", "b", "c"]`. -/
theorem has_class_iff_token (localName v name : String) (attrs : List (String × String))
    (h : (attrs.filter fun a => a.1 == "class").map Prod.snd = [v]) :
    (has_class (.element localName attrs) name = true ↔ name ∈ split_ascii_whitespace v) ∧
    each_class (.element localName attrs) = split_ascii_whitespace v ∧
    has_class (.element "p" [("class", "a b c")]) "b" = true ∧
    has_class (.element "p" [("class", "a b c")]) "ab" = false ∧
    each_class (.element "p" [("class", "a b c")]) = ["a", "b", "c"] := by
  have htok : eachClassTokens attrs = split_ascii_whitespace v := by
    rw [eachClassTokens_eq, h]; simp
  refine ⟨?_, htok, rfl, rfl, rfl⟩
  show hasClassAttrs name attrs = true ↔ _
  rw [hasClassAttrs_eq_any, htok]
  simp [List.any_eq_true]

/-- C6 (witness): the single-class-attribute hypothesis holds for the
spec's concrete element, and the membership reading follows. -/
theorem has_class_iff_token_witness :
    (has_class (.element "p" [("class", "a b c")]) "b" = true ↔
      "b" ∈ split_ascii_whitespace "a b c") ∧
    each_class (.element "p" [("class", "a b c")]) = split_ascii_whitespace "a b c" :=
  ⟨(has_class_iff_token "p" "a b c" "b" [("class", "a b c")] rfl).1,
   (has_class_iff_token "p" "a b c" "b" [("class", "a b c")] rfl).2.1⟩

/-- C7: sibling navigation is computed from `position_in_parent`:
`next_sibling`/`prev_sibling` are the offset-1 instances of
`forward`/`backward`; at the root (no parent) both directions give
`none` for every offset; otherwise `forward n` is exactly the parent's
child at `child_idx + n` (hence `none` whenever that index runs past the
children), and `backward n` is the parent's child at `child_idx - n`,
guarded to `none` by the `child_idx < n` underflow check. -/
theorem sibling_offset_navigation (slab : List NodeData) (i n : Nat) (e : NodeData)
    (h : slab[i]? = some e) :
    next_sibling slab i = forward slab i 1 ∧
    prev_sibling slab i = backward slab i 1 ∧
    (e.parent = none → forward slab i n = none ∧ backward slab i n = none) ∧
    (∀ p pe, e.parent = some p → slab[p]? = some pe →
      forward slab i n = pe.children[e.child_idx + n]? ∧
      (pe.children.length ≤ e.child_idx + n → forward slab i n = none) ∧
      backward slab i n =
        if e.child_idx < n then none else pe.children[e.child_idx - n]?) := by
  refine ⟨rfl, rfl, ?_, ?_⟩
  · intro hp
    constructor
    · simp [forward, h, hp]
    · simp [backward, h, hp]
  · intro p pe hp hpe
    refine ⟨?_, ?_, ?_⟩
    · simp [forward, h, hp, hpe]
    · intro hlen
      simp [forward, h, hp, hpe, List.getElem?_eq_none hlen]
    · simp [backward, h, hp, hpe]

/-- C7 (witness): at the document root (no parent) both walks give
`none`; in the scenario document, the `<p>` node's next sibling at
offset 1 is the text node with identity 4. -/
theorem sibling_offset_navigation_witness :
    (forward demoSlab 0 1 = none ∧ backward demoSlab 0 1 = none) ∧
    forward exSlab 2 1 = some 4 := by
  refine ⟨(sibling_offset_navigation demoSlab 0 1 ⟨none, 0, 0, [], .document⟩ rfl).2.2.1 rfl, ?_⟩
  have h2 := (sibling_offset_navigation exSlab 2 1
      ⟨some 1, 2, 0, [3], .element "p" [("class", "a b")]⟩ rfl).2.2.2 1
      ⟨some 0, 1, 0, [2, 4, 5], .element "div" [("id", "x")]⟩ rfl rfl
  exact h2.1.trans rfl

/-- Reduction of `forward` once the node, its parent field and the
parent's record are known. -/
theorem forward_eq (slab : List NodeData) (i p n : Nat) (e pe : NodeData)
    (h₁ : slab[i]? = some e) (h₂ : e.parent = some p) (h₃ : slab[p]? = some pe) :
    forward slab i n = pe.children[e.child_idx + n]? := by
  simp [forward, h₁, h₂, h₃]

/-- Reduction of `backward` once the node, its parent field and the
parent's record are known. -/
theorem backward_eq (slab : List NodeData) (i p n : Nat) (e pe : NodeData)
    (h₁ : slab[i]? = some e) (h₂ : e.parent = some p) (h₃ : slab[p]? = some pe) :
    backward slab i n = if e.child_idx < n then none else pe.children[e.child_idx - n]? := by
  simp [backward, h₁, h₂, h₃]

/-- The forward element walk, started at offset `n` with enough fuel,
returns the first element among the siblings from position
`child_idx + n` on. -/
theorem next_loop_eq_find (slab : List NodeData) (i p : Nat) (e pe : NodeData)
    (h₁ : slab[i]? = some e) (h₂ : e.parent = some p) (h₃ : slab[p]? = some pe) :
    ∀ fuel n, pe.children.length + 1 ≤ fuel + n →
      next_sibling_element_loop slab i fuel n =
        (pe.children.drop (e.child_idx + n)).find? fun j => is_element slab j := by
  intro fuel
  induction fuel with
  | zero =>
    intro n hn
    have hd : pe.children.drop (e.child_idx + n) = [] :=
      List.drop_eq_nil_of_le (by omega)
    rw [hd]
    rfl
  | succ fuel ih =>
    intro n hn
    have hfwd := forward_eq slab i p n e pe h₁ h₂ h₃
    cases hget : pe.children[e.child_idx + n]? with
    | none =>
      have hlen : pe.children.length ≤ e.child_idx + n := by
        by_contra hcon
        rcases List.getElem?_eq_some.mpr ⟨Nat.lt_of_not_le hcon, rfl⟩ with hs
        rw [hget] at hs
        cases hs
      have hd : pe.children.drop (e.child_idx + n) = [] := List.drop_eq_nil_of_le hlen
      simp [next_sibling_element_loop, hfwd, hget, hd]
    | some j =>
      rcases List.getElem?_eq_some.mp hget with ⟨hlt, hj⟩
      have hdrop : pe.children.drop (e.child_idx + n) =
          j :: pe.children.drop (e.child_idx + n + 1) := by
        rw [List.drop_eq_getElem_cons hlt, hj]
      cases hel : is_element slab j with
      | true =>
        simp [next_sibling_element_loop, hfwd, hget, hdrop, List.find?_cons, hel]
      | false =>
        have hih := ih (n + 1) (by omega)
        rw [← Nat.add_assoc] at hih
        simp [next_sibling_element_loop, hfwd, hget, hdrop, List.find?_cons, hel, hih]

/-- The backward element walk, started at offset `n` with enough fuel,
returns the first element among the siblings before position
`child_idx + 1 - n`, scanned from the nearest one. -/
theorem prev_loop_eq_find (slab : List NodeData) (i p : Nat) (e pe : NodeData)
    (h₁ : slab[i]? = some e) (h₂ : e.parent = some p) (h₃ : slab[p]? = some pe)
    (h₄ : e.child_idx < pe.children.length) :
    ∀ fuel n, e.child_idx + 1 ≤ fuel + n →
      prev_sibling_element_loop slab i fuel n =
        ((pe.children.take (e.child_idx + 1 - n)).reverse).find? fun j => is_element slab j := by
  intro fuel
  induction fuel with
  | zero =>
    intro n hn
    have ht : e.child_idx + 1 - n = 0 := by omega
    rw [ht]
    rfl
  | succ fuel ih =>
    intro n hn
    have hbwd := backward_eq slab i p n e pe h₁ h₂ h₃
    by_cases hlt : e.child_idx < n
    · have ht : e.child_idx + 1 - n = 0 := by omega
      simp [prev_sibling_element_loop, hbwd, hlt, ht]
    · have hidx : e.child_idx - n < pe.children.length := by omega
      have hget : pe.children[e.child_idx - n]? = some (pe.children[e.child_idx - n]) :=
        List.getElem?_eq_some.mpr ⟨hidx, rfl⟩
      have hs : e.child_idx + 1 - n = (e.child_idx - n) + 1 := by omega
      have htake : pe.children.take (e.child_idx - n + 1) =
          pe.children.take (e.child_idx - n) ++ [pe.children[e.child_idx - n]] := by
        rw [List.take_succ, hget]
        rfl
      rw [hs, htake, List.reverse_append]
      simp only [prev_sibling_element_loop]
      rw [hbwd, if_neg hlt, hget]
      show (if is_element slab (pe.children[e.child_idx - n]) = true
          then some (pe.children[e.child_idx - n])
          else prev_sibling_element_loop slab i fuel (n + 1)) = _
      simp only [List.reverse_singleton, List.singleton_append]
      cases hel : is_element slab (pe.children[e.child_idx - n]) with
      | true =>
        rw [List.find?_cons_of_pos _ hel]
        simp
      | false =>
        rw [List.find?_cons_of_neg _ (by simp [hel])]
        have hih := ih (n + 1) (by omega)
        have hs₂ : e.child_idx + 1 - (n + 1) = e.child_idx - n := by omega
        rw [hs₂] at hih
        rw [← hih]
        simp

/-- C8: the element-sibling walks skip non-element siblings: away from
the root, `next_sibling_element` is the first element among the siblings
after `child_idx` (in order), `prev_sibling_element` the first element
among the siblings before `child_idx` scanned backwards, each `none`
when no element sibling exists in that direction; at the root both give
`none`; and both walks terminate — any fuel of at least the parent's
child count plus one yields the same answer as the walk itself. -/
theorem element_sibling_walks (slab : List NodeData) (i : Nat) :
    (∀ e, slab[i]? = some e → e.parent = none →
      next_sibling_element slab i = none ∧ prev_sibling_element slab i = none) ∧
    (∀ e p pe, slab[i]? = some e → e.parent = some p → slab[p]? = some pe →
      e.child_idx < pe.children.length →
      next_sibling_element slab i =
        (pe.children.drop (e.child_idx + 1)).find? (fun j => is_element slab j) ∧
      prev_sibling_element slab i =
        ((pe.children.take e.child_idx).reverse).find? (fun j => is_element slab j) ∧
      (∀ fuel, pe.children.length + 1 ≤ fuel →
        next_sibling_element_loop slab i fuel 1 = next_sibling_element slab i ∧
        prev_sibling_element_loop slab i fuel 1 = prev_sibling_element slab i)) := by
  constructor
  · intro e he hp
    have hf : forward slab i 1 = none := by simp [forward, he, hp]
    have hb : backward slab i 1 = none := by simp [backward, he, hp]
    have hfuel : sibling_fuel slab i = 1 := by simp [sibling_fuel, he, hp]
    constructor
    · simp [next_sibling_element, hfuel, next_sibling_element_loop, hf]
    · simp [prev_sibling_element, hfuel, prev_sibling_element_loop, hb]
  · intro e p pe he hp hpe hci
    have hfuel : sibling_fuel slab i = pe.children.length + 1 := by
      simp [sibling_fuel, he, hp, hpe]
    have hcc : e.child_idx + 1 - 1 = e.child_idx := by omega
    have hnext : next_sibling_element slab i =
        (pe.children.drop (e.child_idx + 1)).find? (fun j => is_element slab j) := by
      unfold next_sibling_element
      rw [hfuel, next_loop_eq_find slab i p e pe he hp hpe (pe.children.length + 1) 1 (by omega)]
    have hprev : prev_sibling_element slab i =
        ((pe.children.take e.child_idx).reverse).find? (fun j => is_element slab j) := by
      unfold prev_sibling_element
      rw [hfuel, prev_loop_eq_find slab i p e pe he hp hpe hci (pe.children.length + 1) 1 (by omega),
        hcc]
    refine ⟨hnext, hprev, ?_⟩
    intro fuel hfl
    constructor
    · rw [next_loop_eq_find slab i p e pe he hp hpe fuel 1 (by omega), hnext]
    · rw [prev_loop_eq_find slab i p e pe he hp hpe hci fuel 1 (by omega), hcc, hprev]

/-- C8 (witness): in the scenario document, the `<p>` node's next element
sibling skips the intervening text node and is the `<span>` (identity 5),
and it has no previous element sibling. -/
theorem element_sibling_walks_witness :
    next_sibling_element exSlab 2 = some 5 ∧ prev_sibling_element exSlab 2 = none := by
  have h := (element_sibling_walks exSlab 2).2
      ⟨some 1, 2, 0, [3], .element "p" [("class", "a b")]⟩ 1
      ⟨some 0, 1, 0, [2, 4, 5], .element "div" [("id", "x")]⟩ rfl rfl rfl (by decide)
  exact ⟨h.1.trans rfl, h.2.1.trans rfl⟩

/-- C9: on any non-element node, the attribute accessors return the
empty/negative result instead of failing: `has_class` is `false`, and
`each_class` and `each_attr_name` invoke their callbacks zero times. -/
theorem non_element_attr_queries_empty (payload : NodeKind) (name : String)
    (h : payload.isElement = false) :
    has_class payload name = false ∧
    each_class payload = [] ∧
    each_attr_name payload = [] := by
  cases payload <;>
    simp_all [has_class, each_class, each_attr_name, NodeKind.isElement]

/-- C9 (witness): the accessors at a concrete text node. -/
theorem non_element_attr_queries_empty_witness :
    has_class (.text "hi") "a" = false ∧
    each_class (.text "hi") = [] ∧
    each_attr_name (.text "hi") = [] :=
  non_element_attr_queries_empty (.text "hi") "a" rfl

/-- Writing back the children ids targets exactly the record at the given
slab index. -/
theorem setChildren_append (xs : List NodeData) (e : NodeData) (ys : List NodeData)
    (cids : List Nat) :
    setChildren (xs ++ e :: ys) xs.length cids = xs ++ { e with children := cids } :: ys := by
  induction xs with
  | nil => rfl
  | cons x xs ih => simp [setChildren, ih]

/-- Every parsed tree has at least one node. -/
theorem sizeNode_pos (n : RcNode) : 1 ≤ sizeNode n := by
  match n with
  | .mk d cs => simp [sizeNode]

mutual

/-- The slab block of one subtree has exactly one record per node. -/
theorem buildNode_length (n : RcNode) (base ci : Nat) (p : Option Nat) :
    (buildNode base n ci p).length = sizeNode n := by
  match n with
  | .mk d cs =>
    simp [buildNode, sizeNode, buildForest_length cs (base + 1) base 0]
    omega
termination_by sizeOf n

/-- The slab block of a forest has exactly one record per node. -/
theorem buildForest_length (cs : List RcNode) (base pid idx : Nat) :
    (buildForest base pid cs idx).length = sizeForest cs := by
  match cs with
  | [] => rfl
  | c :: cs' =>
    simp [buildForest, sizeForest, buildNode_length c base idx (some pid),
      buildForest_length cs' (base + sizeNode c) pid (idx + 1)]
termination_by sizeOf cs

end

/-- A forest has one root id per tree. -/
theorem idsOfChildren_length (cs : List RcNode) (base : Nat) :
    (idsOfChildren base cs).length = cs.length := by
  induction cs generalizing base with
  | nil => rfl
  | cons c cs ih => simp [idsOfChildren, ih]

/-- A forest has at least as many nodes as trees. -/
theorem length_le_sizeForest (cs : List RcNode) : cs.length ≤ sizeForest cs := by
  induction cs with
  | nil => simp [sizeForest]
  | cons c cs ih =>
    have := sizeNode_pos c
    simp only [sizeForest, List.length_cons]
    omega

mutual

/-- The imperative slab construction equals appending the closed-form
block: `fill_slab_with_handles` extends the slab with `buildNode` at the
current length and returns that length as the new id. -/
theorem fill_slab_eq (slab : List NodeData) (n : RcNode) (ci : Nat) (p : Option Nat) :
    fill_slab_with_handles slab n ci p = (slab ++ buildNode slab.length n ci p, slab.length) := by
  match n with
  | .mk d cs =>
    have hfc := fillChildren_eq (slab ++ [⟨p, slab.length, ci, [], d⟩]) cs 0 slab.length
    have hlen : (slab ++ [(⟨p, slab.length, ci, [], d⟩ : NodeData)]).length = slab.length + 1 := by
      simp
    simp only [fill_slab_with_handles]
    rw [hfc, hlen, List.append_assoc, List.singleton_append,
      setChildren_append slab ⟨p, slab.length, ci, [], d⟩
        (buildForest (slab.length + 1) slab.length cs 0) (idsOfChildren (slab.length + 1) cs)]
    simp [buildNode]
termination_by sizeOf n

/-- The child loop equals appending the closed-form forest block and
returns the forest's root ids. -/
theorem fillChildren_eq (slab : List NodeData) (cs : List RcNode) (idx pid : Nat) :
    fillChildren slab cs idx pid =
      (slab ++ buildForest slab.length pid cs idx, idsOfChildren slab.length cs) := by
  match cs with
  | [] => simp [fillChildren, buildForest, idsOfChildren]
  | c :: cs' =>
    have h₁ := fill_slab_eq slab c idx (some pid)
    have h₂ := fillChildren_eq (slab ++ buildNode slab.length c idx (some pid)) cs' (idx + 1) pid
    have hlen : (slab ++ buildNode slab.length c idx (some pid)).length =
        slab.length + sizeNode c := by
      simp [buildNode_length]
    rw [hlen] at h₂
    simp only [fillChildren]
    rw [h₁]
    simp only
    rw [h₂]
    simp [buildForest, idsOfChildren, List.append_assoc]
termination_by sizeOf cs

end

mutual

/-- Ids inside a subtree's block are consecutive from `base`: the ids of
the block are exactly `base, base+1, …, base + size - 1` in order. -/
theorem buildNode_map_id (n : RcNode) (base ci : Nat) (p : Option Nat) :
    (buildNode base n ci p).map NodeData.id = List.range' base (sizeNode n) := by
  match n with
  | .mk d cs =>
    have hf := buildForest_map_id cs (base + 1) base 0
    have hsz : sizeNode (RcNode.mk d cs) = sizeForest cs + 1 := by
      simp [sizeNode, Nat.add_comm]
    rw [hsz]
    show _ = base :: List.range' (base + 1) (sizeForest cs)
    simp [buildNode, hf]
termination_by sizeOf n

/-- Ids inside a forest's block are consecutive from `base`. -/
theorem buildForest_map_id (cs : List RcNode) (base pid idx : Nat) :
    (buildForest base pid cs idx).map NodeData.id = List.range' base (sizeForest cs) := by
  match cs with
  | [] => rfl
  | c :: cs' =>
    have h₁ := buildNode_map_id c base idx (some pid)
    have h₂ := buildForest_map_id cs' (base + sizeNode c) pid (idx + 1)
    have happ := List.range'_append base (sizeNode c) (sizeForest cs') 1
    simp only [one_mul] at happ
    simp only [buildForest, List.map_append, h₁, h₂]
    rw [happ]
    simp [sizeForest, Nat.add_comm]
termination_by sizeOf cs

end

mutual

/-- The payloads stored along a subtree's block are the pre-order
payloads of the subtree. -/
theorem buildNode_map_node (n : RcNode) (base ci : Nat) (p : Option Nat) :
    (buildNode base n ci p).map NodeData.node = preorderKinds n := by
  match n with
  | .mk d cs =>
    simp [buildNode, preorderKinds, buildForest_map_node cs (base + 1) base 0]
termination_by sizeOf n

/-- The payloads stored along a forest's block are the pre-order payloads
of the forest. -/
theorem buildForest_map_node (cs : List RcNode) (base pid idx : Nat) :
    (buildForest base pid cs idx).map NodeData.node = preorderForestKinds cs := by
  match cs with
  | [] => rfl
  | c :: cs' =>
    simp [buildForest, preorderForestKinds, List.map_append,
      buildNode_map_node c base idx (some pid),
      buildForest_map_node cs' (base + sizeNode c) pid (idx + 1)]
termination_by sizeOf cs

end

mutual

/-- Parent bookkeeping inside a subtree's block: the record at relative
position 0 carries the caller-supplied parent, child index and id `base`;
every other record's parent lies inside the block and that parent's
`children` list holds the record's id at position `child_idx`. -/
theorem buildNode_parent (n : RcNode) (base ci : Nat) (p : Option Nat) (k : Nat)
    (e : NodeData) (hk : (buildNode base n ci p)[k]? = some e) :
    (k = 0 → e.parent = p ∧ e.child_idx = ci ∧ e.id = base) ∧
    (k ≠ 0 → ∃ q, e.parent = some q ∧ base ≤ q ∧ q < base + sizeNode n ∧
      ∃ pe, (buildNode base n ci p)[q - base]? = some pe ∧
        pe.children[e.child_idx]? = some e.id) := by
  cases n with
  | mk d cs =>
    cases k with
    | zero =>
      refine ⟨?_, fun h0 => absurd rfl h0⟩
      intro _
      simp only [buildNode, List.getElem?_cons_zero, Option.some.injEq] at hk
      rw [← hk]
      exact ⟨rfl, rfl, rfl⟩
    | succ k =>
      refine ⟨fun h0 => by simp at h0, ?_⟩
      intro _
      simp only [buildNode, List.getElem?_cons_succ] at hk
      rcases buildForest_parent cs (base + 1) base 0 k e hk with hl | hr
      · rcases hl with ⟨hpar, _, hid⟩
        refine ⟨base, hpar, Nat.le_refl base, ?_, ?_⟩
        · have := sizeNode_pos (RcNode.mk d cs)
          omega
        · refine ⟨⟨p, base, ci, idsOfChildren (base + 1) cs, d⟩, ?_, ?_⟩
          · simp [buildNode, Nat.sub_self]
          · simpa using hid
      · rcases hr with ⟨q, hpar, hge, hlt, pe, hpe, hch⟩
        refine ⟨q, hpar, by omega, ?_, pe, ?_, hch⟩
        · have hsz : sizeNode (RcNode.mk d cs) = 1 + sizeForest cs := by simp [sizeNode]
          omega
        · have hq : q - base = (q - (base + 1)) + 1 := by omega
          simp only [buildNode, hq, List.getElem?_cons_succ]
          exact hpe
termination_by sizeOf n

/-- Parent bookkeeping inside a forest's block: each record either is one
of the forest's roots — its parent is the caller-supplied `pid`, and the
forest's id list holds its id at position `child_idx - idx` — or its
parent lies inside the block with the same `children`-slot property. -/
theorem buildForest_parent (cs : List RcNode) (base pid idx : Nat) (k : Nat)
    (e : NodeData) (hk : (buildForest base pid cs idx)[k]? = some e) :
    (e.parent = some pid ∧ idx ≤ e.child_idx ∧
      (idsOfChildren base cs)[e.child_idx - idx]? = some e.id)
    ∨ (∃ q, e.parent = some q ∧ base ≤ q ∧ q < base + sizeForest cs ∧
        ∃ pe, (buildForest base pid cs idx)[q - base]? = some pe ∧
          pe.children[e.child_idx]? = some e.id) := by
  cases cs with
  | nil =>
    simp [buildForest] at hk
  | cons c cs' =>
    simp only [buildForest] at hk ⊢
    by_cases hlt : k < sizeNode c
    · have hbn : k < (buildNode base c idx (some pid)).length := by
        rw [buildNode_length]
        exact hlt
      rw [List.getElem?_append_left hbn] at hk
      rcases buildNode_parent c base idx (some pid) k e hk with ⟨hz, hnz⟩
      by_cases hk0 : k = 0
      · rcases hz hk0 with ⟨hpar, hci, hid⟩
        left
        refine ⟨hpar, by omega, ?_⟩
        simp [idsOfChildren, hci, hid, Nat.sub_self]
      · rcases hnz hk0 with ⟨q, hpar, hge, hlt₂, pe, hpe, hch⟩
        right
        refine ⟨q, hpar, hge, ?_, pe, ?_, hch⟩
        · have hsz : sizeForest (c :: cs') = sizeNode c + sizeForest cs' := by simp [sizeForest]
          omega
        · have hqlt : q - base < (buildNode base c idx (some pid)).length := by
            rw [buildNode_length]
            omega
          rw [List.getElem?_append_left hqlt]
          exact hpe
    · have hbn : (buildNode base c idx (some pid)).length ≤ k := by
        rw [buildNode_length]
        omega
      rw [List.getElem?_append_right hbn, buildNode_length] at hk
      rcases buildForest_parent cs' (base + sizeNode c) pid (idx + 1) (k - sizeNode c) e hk
        with hl | hr
      · rcases hl with ⟨hpar, hge, hid⟩
        left
        refine ⟨hpar, by omega, ?_⟩
        have hs : e.child_idx - idx = (e.child_idx - (idx + 1)) + 1 := by omega
        simp only [idsOfChildren, hs, List.getElem?_cons_succ]
        exact hid
      · rcases hr with ⟨q, hpar, hge, hlt₂, pe, hpe, hch⟩
        right
        refine ⟨q, hpar, by omega, ?_, pe, ?_, hch⟩
        · have hsz : sizeForest (c :: cs') = sizeNode c + sizeForest cs' := by simp [sizeForest]
          omega
        · have hqge : (buildNode base c idx (some pid)).length ≤ q - base := by
            rw [buildNode_length]
            omega
          rw [List.getElem?_append_right hqge, buildNode_length]
          have hqq : q - base - sizeNode c = q - (base + sizeNode c) := by omega
          rw [hqq]
          exact hpe
termination_by sizeOf cs

end

/-- Draining a `Traverser` positioned at child index `k` yields the
remaining children (up to the fuel). -/
theorem runTraverser_eq (slab : List NodeData) (i : Nat) (e : NodeData)
    (h : slab[i]? = some e) :
    ∀ fuel k, runTraverser slab fuel ⟨i, k⟩ = (e.children.drop k).take fuel := by
  intro fuel
  induction fuel with
  | zero =>
    intro k
    rfl
  | succ fuel ih =>
    intro k
    cases hk : e.children[k]? with
    | none =>
      have hlen : e.children.length ≤ k := by
        by_contra hcon
        have hs := List.getElem?_eq_some.mpr ⟨Nat.lt_of_not_le hcon, rfl⟩
        rw [hk] at hs
        cases hs
      have hd : e.children.drop k = [] := List.drop_eq_nil_of_le hlen
      simp [runTraverser, Traverser.next, h, hk, hd]
    | some c =>
      rcases List.getElem?_eq_some.mp hk with ⟨hlt, hv⟩
      have hd : e.children.drop k = c :: e.children.drop (k + 1) := by
        rw [List.drop_eq_getElem_cons hlt, hv]
      simp [runTraverser, Traverser.next, h, hk, hd, ih (k + 1)]

/-- Looking every index of a list up with `getElem?` in order returns the
list itself (under `some`). -/
theorem map_getElem?_range {α : Type} (l : List α) :
    (List.range l.length).map (fun i => l[i]?) = l.map some := by
  induction l with
  | nil => rfl
  | cons x xs ih =>
    have hfun : ((fun i => (x :: xs)[i]?) ∘ Nat.succ) = fun i => xs[i]? := by
      funext i
      simp
    rw [List.length_cons, List.range_succ_eq_map]
    simp [List.map_map, hfun, ih]

mutual

/-- The `Traverser`-driven pre-order walk of a subtree whose block sits
at `base` in the slab visits exactly the ids `base, …, base + size - 1`
in increasing order, for any fuel of at least the subtree's size. -/
theorem arenaPreorder_node (n : RcNode) (S : List NodeData) (base ci : Nat) (p : Option Nat)
    (hagree : ∀ k, k < sizeNode n → S[base + k]? = (buildNode base n ci p)[k]?) :
    ∀ fuel, sizeNode n ≤ fuel →
      arenaPreorder S fuel base = List.range' base (sizeNode n) := by
  cases n with
  | mk d cs =>
    intro fuel hfuel
    cases fuel with
    | zero =>
      exact absurd hfuel (by have := sizeNode_pos (RcNode.mk d cs); omega)
    | succ fuel =>
      have hroot : S[base]? = some ⟨p, base, ci, idsOfChildren (base + 1) cs, d⟩ := by
        have h0 := hagree 0 (sizeNode_pos (RcNode.mk d cs))
        simpa [buildNode] using h0
      have hcs_len : cs.length ≤ S.length := by
        have hlast : sizeNode (RcNode.mk d cs) - 1 < (buildNode base (RcNode.mk d cs) ci p).length := by
          rw [buildNode_length]
          have := sizeNode_pos (RcNode.mk d cs)
          omega
        have hksome : S[base + (sizeNode (RcNode.mk d cs) - 1)]? =
            some ((buildNode base (RcNode.mk d cs) ci p)[sizeNode (RcNode.mk d cs) - 1]) := by
          rw [hagree (sizeNode (RcNode.mk d cs) - 1)
            (by have := sizeNode_pos (RcNode.mk d cs); omega)]
          exact List.getElem?_eq_some.mpr ⟨hlast, rfl⟩
        have hS := (List.getElem?_eq_some.mp hksome).1
        have h1 := length_le_sizeForest cs
        have h2 : sizeNode (RcNode.mk d cs) = 1 + sizeForest cs := by simp [sizeNode]
        omega
      have hrun : runTraverser S S.length (traversal_children base) =
          idsOfChildren (base + 1) cs := by
        have hr := runTraverser_eq S base _ hroot S.length 0
        have hl : (idsOfChildren (base + 1) cs).length ≤ S.length := by
          rw [idsOfChildren_length]
          exact hcs_len
        simpa [traversal_children, List.take_of_length_le hl] using hr
      have hagree₂ : ∀ k, k < sizeForest cs →
          S[(base + 1) + k]? = (buildForest (base + 1) base cs 0)[k]? := by
        intro k hkf
        have hka := hagree (k + 1) (by simp [sizeNode]; omega)
        have harith : base + (k + 1) = (base + 1) + k := by omega
        rw [harith] at hka
        simpa [buildNode] using hka
      have hfuel₂ : sizeForest cs ≤ fuel := by
        have h2 : sizeNode (RcNode.mk d cs) = 1 + sizeForest cs := by simp [sizeNode]
        omega
      have hfor := arenaPreorder_forest cs S (base + 1) base 0 hagree₂ fuel hfuel₂
      have hsz : sizeNode (RcNode.mk d cs) = sizeForest cs + 1 := by
        simp [sizeNode, Nat.add_comm]
      rw [hsz]
      show base :: ((runTraverser S S.length (traversal_children base)).map
          (arenaPreorder S fuel)).flatten = base :: List.range' (base + 1) (sizeForest cs)
      rw [hrun, hfor]
termination_by sizeOf n

/-- The pre-order walks of a forest's roots, concatenated, visit exactly
the forest's block ids in increasing order. -/
theorem arenaPreorder_forest (cs : List RcNode) (S : List NodeData) (base pid idx : Nat)
    (hagree : ∀ k, k < sizeForest cs → S[base + k]? = (buildForest base pid cs idx)[k]?) :
    ∀ fuel, sizeForest cs ≤ fuel →
      ((idsOfChildren base cs).map (arenaPreorder S fuel)).flatten =
        List.range' base (sizeForest cs) := by
  cases cs with
  | nil =>
    intro fuel _
    rfl
  | cons c cs' =>
    intro fuel hfuel
    have hsz : sizeForest (c :: cs') = sizeNode c + sizeForest cs' := by simp [sizeForest]
    have hagree₁ : ∀ k, k < sizeNode c →
        S[base + k]? = (buildNode base c idx (some pid))[k]? := by
      intro k hk
      rw [hagree k (by omega)]
      simp only [buildForest]
      exact List.getElem?_append_left (by rw [buildNode_length]; exact hk)
    have hhead := arenaPreorder_node c S base idx (some pid) hagree₁ fuel (by omega)
    have hagree₂ : ∀ k, k < sizeForest cs' →
        S[(base + sizeNode c) + k]? = (buildForest (base + sizeNode c) pid cs' (idx + 1))[k]? := by
      intro k hk
      have h := hagree (sizeNode c + k) (by omega)
      have harith : base + (sizeNode c + k) = (base + sizeNode c) + k := by omega
      rw [harith] at h
      rw [h]
      simp only [buildForest]
      rw [List.getElem?_append_right (by rw [buildNode_length]; omega), buildNode_length]
      congr 1
      omega
    have htail := arenaPreorder_forest cs' S (base + sizeNode c) pid (idx + 1) hagree₂ fuel
      (by omega)
    have happ := List.range'_append base (sizeNode c) (sizeForest cs') 1
    simp only [one_mul] at happ
    simp only [idsOfChildren, List.map_cons, List.flatten_cons]
    rw [hhead, htail, happ, hsz, Nat.add_comm (sizeNode c) (sizeForest cs')]
termination_by sizeOf cs

end

/-- C4: constructing the document from a parsed tree with `N` nodes
assigns the identities `0, …, N-1` in slab order (identity density: the
stored ids are exactly `range N`), gives identity 0 — returned as the
root id — to the synthetic root record, whose parent is `none`; and for
every non-root record the invariant
`parent.children[position_in_parent] = identity` holds, its identity
moreover equalling its slab index. -/
theorem fill_slab_density_and_consistency (t : RcNode) (slab : List NodeData) (rootId : Nat)
    (h : fill_slab_with_handles [] t 0 none = (slab, rootId)) :
    rootId = 0 ∧
    slab.length = sizeNode t ∧
    slab.map NodeData.id = List.range (sizeNode t) ∧
    (∀ d cs, t = .mk d cs → slab[0]? = some ⟨none, 0, 0, idsOfChildren 1 cs, d⟩) ∧
    (∀ k e, slab[k]? = some e → k ≠ 0 →
      e.id = k ∧ ∃ q pe, e.parent = some q ∧ slab[q]? = some pe ∧
        pe.children[e.child_idx]? = some e.id) := by
  have hfe := fill_slab_eq [] t 0 none
  rw [h] at hfe
  have hslab : slab = buildNode 0 t 0 none := by
    have := congrArg Prod.fst hfe
    simpa using this
  have hrid : rootId = 0 := by
    have := congrArg Prod.snd hfe
    simpa using this
  subst hslab
  subst hrid
  refine ⟨rfl, buildNode_length t 0 0 none, ?_, ?_, ?_⟩
  · rw [buildNode_map_id, List.range_eq_range']
  · intro d cs ht
    subst ht
    simp [buildNode]
  · intro k e hk hk0
    have hid : e.id = k := by
      have h₁ : ((buildNode 0 t 0 none).map NodeData.id)[k]? = some e.id := by
        simp [List.getElem?_map, hk]
      rw [buildNode_map_id] at h₁
      have hklt : k < sizeNode t := by
        have hlen := (List.getElem?_eq_some.mp h₁).1
        simpa using hlen
      rw [← List.range_eq_range', List.getElem?_range hklt] at h₁
      exact (Option.some.inj h₁).symm
    refine ⟨hid, ?_⟩
    have hpar := (buildNode_parent t 0 0 none k e hk).2 hk0
    rcases hpar with ⟨q, hq, _, _, pe, hpe, hch⟩
    refine ⟨q, pe, hq, ?_, hch⟩
    simpa using hpe

/-- C4 (witness): on the scenario document the root id is 0, the ids are
dense, and the `<p>` record (slab index 2) is listed in its parent's
children at its `child_idx`. -/
theorem fill_slab_density_and_consistency_witness :
    (fill_slab_with_handles [] exTree 0 none).2 = 0 ∧
    exSlab.map NodeData.id = List.range (sizeNode exTree) ∧
    (∃ q : Nat, ∃ pe : NodeData, exSlab[q]? = some pe ∧ pe.children[(0 : Nat)]? = some 2) := by
  have h := fill_slab_density_and_consistency exTree exSlab
    (fill_slab_with_handles [] exTree 0 none).2 rfl
  refine ⟨h.1, h.2.2.1, ?_⟩
  have hc := h.2.2.2.2 2 ⟨some 1, 2, 0, [3], .element "p" [("class", "a b")]⟩ rfl (by decide)
  rcases hc with ⟨_, q, pe, _, hpe, hch⟩
  exact ⟨q, pe, hpe, hch⟩

/-- C5: the pre-order traversal of the constructed arena performed
through `Traverser` iterators, started at the returned root id with any
sufficient fuel, visits the slab indices `0, …, N-1` in order — which is
exactly the pre-order of the original parsed tree: the payload sequence
it visits equals the tree's pre-order payload sequence. -/
theorem traversal_preorder_matches_tree (t : RcNode) (slab : List NodeData) (rootId : Nat)
    (h : fill_slab_with_handles [] t 0 none = (slab, rootId)) :
    ∀ fuel, sizeNode t ≤ fuel →
      arenaPreorder slab fuel rootId = List.range (sizeNode t) ∧
      (arenaPreorder slab fuel rootId).map (fun i => (slab[i]?).map NodeData.node) =
        (preorderKinds t).map some := by
  have hfe := fill_slab_eq [] t 0 none
  rw [h] at hfe
  have hslab : slab = buildNode 0 t 0 none := by
    have := congrArg Prod.fst hfe
    simpa using this
  have hrid : rootId = 0 := by
    have := congrArg Prod.snd hfe
    simpa using this
  subst hslab
  subst hrid
  intro fuel hfuel
  have hpre : arenaPreorder (buildNode 0 t 0 none) fuel 0 = List.range' 0 (sizeNode t) :=
    arenaPreorder_node t (buildNode 0 t 0 none) 0 0 none (by intro k hk; simp) fuel hfuel
  have hlen := buildNode_length t 0 0 none
  constructor
  · rw [hpre, ← List.range_eq_range']
  · rw [hpre, ← List.range_eq_range', ← hlen]
    have hsplit : (List.range (buildNode 0 t 0 none).length).map
        (fun i => ((buildNode 0 t 0 none)[i]?).map NodeData.node) =
        ((List.range (buildNode 0 t 0 none).length).map
          (fun i => (buildNode 0 t 0 none)[i]?)).map (Option.map NodeData.node) := by
      rw [List.map_map]
      rfl
    rw [hsplit, map_getElem?_range, ← buildNode_map_node t 0 0 none]
    simp [List.map_map, Function.comp]

/-- C5 (witness): on the scenario document with fuel equal to its size,
the traversal visits ids `0, …, 5` in order and reads back the tree's
pre-order payloads. -/
theorem traversal_preorder_matches_tree_witness :
    arenaPreorder exSlab (sizeNode exTree) 0 = List.range (sizeNode exTree) ∧
    (arenaPreorder exSlab (sizeNode exTree) 0).map (fun i => (exSlab[i]?).map NodeData.node) =
      (preorderKinds exTree).map some :=
  traversal_preorder_matches_tree exTree exSlab (fill_slab_with_handles [] exTree 0 none).2 rfl
    (sizeNode exTree) (Nat.le_refl _)

/-- C10: `as_document` starts with `panic!()`, so for every node handle —
the identity-0 document root included — it aborts and never reaches the
`id != 0` guard or returns a document view. -/
theorem as_document_always_panics (slab : List NodeData) (i : Nat) :
    as_document slab i = Except.error "panic" :=
  rfl

end Blitz
